import Mathlib

/-!
Verification of the `typed_ant_lsp` document/diagnostic orchestration layer
(`src/lsp_backend/src/lib.rs`, `src/lsp_backend/src/utils.rs`).

Text is modelled as `List Char` (Rust `char` = Unicode scalar value = Lean
`Char`).  The external front end (lexer, parser, type checker, symbol table
initialisation) is out of scope of the repository and is modelled as an
abstract `Frontend` record; everything else is translated directly from the
Rust source.
-/

namespace TypedAntLsp

/-- UTF-16 encoding of one character, as Rust's `char::encode_utf16`:
a BMP scalar is one code unit, anything above `0xFFFF` becomes a
high/low surrogate pair. -/
def encodeUtf16Char (c : Char) : List Nat :=
  let n := c.toNat
  if n < 0x10000 then [n]
  else [0xD800 + (n - 0x10000) / 0x400, 0xDC00 + (n - 0x10000) % 0x400]

/-- `utf16_len` from `src/lsp_backend/src/utils.rs`:
`self.encode_utf16().count()` — the number of UTF-16 code units of the
string's encoding. -/
def utf16_len (s : List Char) : Nat := (s.map encodeUtf16Char).flatten.length

/-- Spec-side count (§8 of the spec): one unit per BMP character, two units
(a surrogate pair) per character outside the BMP. -/
def utf16LenSpec (s : List Char) : Nat :=
  (s.map (fun c => if c.toNat < 0x10000 then 1 else 2)).sum

/-- `ant_token::token::Token` as consumed by this layer: 1-based line,
1-based column (character count), literal value. -/
structure Token where
  line : Nat
  column : Nat
  value : List Char
deriving DecidableEq

/-- Rust `str::split_inclusive('\n')`: split after every newline, keeping
the terminator; the empty string yields no pieces. -/
def splitInclusiveNl : List Char → List (List Char)
  | [] => []
  | c :: rest =>
    if c = '\n' then ['\n'] :: splitInclusiveNl rest
    else
      match splitInclusiveNl rest with
      | [] => [[c]]
      | l :: ls => (c :: l) :: ls

/-- Rust `str::strip_suffix(c)`: `some` of the shortened list when the last
character is `c`, else `none`. -/
def stripSuffixChar (l : List Char) (c : Char) : Option (List Char) :=
  if l.getLast? = some c then some l.dropLast else none

/-- The per-line map of Rust `str::lines`: strip one trailing `'\n'`, and
when one was stripped also strip one trailing `'\r'`. -/
def linesMap (l : List Char) : List Char :=
  match stripSuffixChar l '\n' with
  | none => l
  | some l2 =>
    match stripSuffixChar l2 '\r' with
    | none => l2
    | some l3 => l3

/-- Rust `str::lines()`: `split_inclusive('\n')` with terminators (and a
preceding `'\r'`) removed from each piece. -/
def rustLines (s : List Char) : List (List Char) :=
  (splitInclusiveNl s).map linesMap

/-- `calc_token_pos` from `src/lsp_backend/src/lib.rs` lines 71–79:
`text.lines().nth(token.line - 1).unwrap_or("")`, take the first
`token.column - 1` characters as the prefix, return
`(utf16_len prefix, utf16_len prefix + utf16_len token.value)`. -/
def calc_token_pos (text : List Char) (tok : Token) : Nat × Nat :=
  let lineText := (rustLines text).getD (tok.line - 1) []
  let pfx := lineText.take (tok.column - 1)
  let start := utf16_len pfx
  (start, start + utf16_len tok.value)

/-- LSP `Position`: 0-based line, UTF-16 character offset. -/
structure Position where
  line : Nat
  character : Nat
deriving DecidableEq

/-- The line-start search loop of `current_ident`
(`src/lsp_backend/src/lib.rs` lines 35–46): walk the characters, breaking
as soon as `currentLine` reaches the target, bumping `lineStart` past each
newline.  Indices are character counts (the Rust byte indices always sit on
character boundaries, so dropping by characters is the same slicing). -/
def lineStartLoop (targetLine : Nat) : List Char → Nat → Nat → Nat → Nat
  | [], _, _, lineStart => lineStart
  | c :: rest, i, currentLine, lineStart =>
    if currentLine = targetLine then lineStart
    else if c = '\n' then lineStartLoop targetLine rest (i + 1) (currentLine + 1) (i + 1)
    else lineStartLoop targetLine rest (i + 1) currentLine lineStart

/-- The trailing run extraction of `current_ident`: reverse, take while the
predicate holds, reverse back (the Rust collects to a `String` in between,
which does not change the character sequence). -/
def trailingRun (p : Char → Bool) (l : List Char) : List Char :=
  (l.reverse.takeWhile p).reverse

/-- `current_ident` from `src/lsp_backend/src/lib.rs` lines 34–68.
`isAlnum` abstracts Rust's Unicode `char::is_alphanumeric`.  The Rust code
finds `line_start` with the loop above, takes the suffix of the whole text
from there (`&text[line_start..]`), consumes `position.character` characters
of that suffix (`col_bytes` is the byte length of exactly those characters,
and is always `≤ line.len()`, so the `min` is the identity), and keeps the
maximal trailing run of alphanumeric-or-underscore characters. -/
def current_ident (isAlnum : Char → Bool) (text : List Char) (pos : Position) :
    List Char :=
  let lineStart := lineStartLoop pos.line text 0 0 0
  let line := text.drop lineStart
  let before := line.take pos.character
  trailingRun (fun c => isAlnum c || c = '_') before

/-- Plain split of a text into lines at `'\n'` (terminators dropped, an
empty text is one empty line): the notion of "line" that `current_ident`'s
`'\n'`-counting loop works with. -/
def splitOnNl : List Char → List (List Char)
  | [] => [[]]
  | c :: rest =>
    if c = '\n' then [] :: splitOnNl rest
    else
      match splitOnNl rest with
      | [] => [[c]]
      | l :: ls => (c :: l) :: ls

/-- Rejoin lines with `'\n'` separators. -/
def joinNl : List (List Char) → List Char
  | [] => []
  | [l] => l
  | l :: l2 :: ls => l ++ '\n' :: joinNl (l2 :: ls)

/-- Character offset of the start of line `n` (0-based): the total length
of the first `n` lines, each with its terminating newline. -/
def lineOffset (n : Nat) (text : List Char) : Nat :=
  (((splitOnNl text).take n).map (fun l => l.length + 1)).sum

/-- Character offset of the start of the last line: the total length of
every line but the last, each with its terminating newline. -/
def lineOffsetLast (text : List Char) : Nat :=
  ((splitOnNl text).dropLast.map (fun l => l.length + 1)).sum

/-- A document URI, abstracted to the two observations the layer makes of
it: its string form (`Url::to_string`) and its optional filesystem path
(`Url::to_file_path`, `none` for non-file URIs). -/
structure Url where
  asString : List Char
  asFilePath : Option (List Char)
deriving DecidableEq

/-- The display label of `analyze` (`lib.rs` lines 92–94):
`uri.to_file_path().map_or(uri.to_string(), ...)` — the file path when the
URI is file-backed, otherwise the URI string. -/
def fileLabel (uri : Url) : List Char :=
  match uri.asFilePath with
  | some p => p
  | none => uri.asString

/-- `ant_type_checker::table::TypeTable`, reduced to the one observation
this layer makes: the iteration sequence of `var_map`'s identifier keys. -/
structure TypeTable where
  var_map : List (List Char)
deriving DecidableEq

/-- A parser / type-checker error (`ant_parser`, `ant_type_checker`):
offending token, the error kind's `to_string()` rendering, and an optional
supplied message. -/
structure FrontEndError where
  token : Token
  kind : List Char
  message : Option (List Char)
deriving DecidableEq

/-- The lexer's output: the token sequence (`get_tokens`) and whether a
lexical error occurred (`contains_error`). -/
structure LexOutput where
  tokens : List Token
  hasError : Bool

/-- The external front end consumed by `analyze` and the handlers:
lexer, parser, type checker (which mutates the shared table, modelled by
returning the new table alongside the outcome, populated even on failure),
and the pre-seeded table produced by `TypeTable::new().init()`. -/
structure Frontend (Ast : Type) where
  lex : List Char → List Char → LexOutput
  parse : List Token → Except FrontEndError Ast
  check : Ast → TypeTable → Except FrontEndError Unit × TypeTable
  initTable : TypeTable

/-- LSP `DiagnosticSeverity`. -/
inductive DiagnosticSeverity where
  | ERROR
  | WARNING
  | INFORMATION
  | HINT
deriving DecidableEq

/-- LSP `Range`: start and end positions. -/
structure Range where
  start : Position
  «end» : Position
deriving DecidableEq

/-- LSP `Diagnostic`, restricted to the fields this layer sets; the
remaining fields come from `..Default::default()` and stay at their
defaults.  The default range is the document start. -/
structure Diagnostic where
  range : Range
  severity : Option DiagnosticSeverity
  message : List Char
  source : Option (List Char)
deriving DecidableEq

/-- The diagnostic built for a parser or type-checker error
(`lib.rs` lines 111–125 and 130–144): 0-based line `token.line - 1`,
UTF-16 columns from `calc_token_pos`, message
`err.message.unwrap_or(err.kind.to_string())`. -/
def errDiag (text : List Char) (file : List Char) (err : FrontEndError) :
    Diagnostic :=
  let line := err.token.line - 1
  let cols := calc_token_pos text err.token
  { range := ⟨⟨line, cols.1⟩, ⟨line, cols.2⟩⟩
    severity := some DiagnosticSeverity.ERROR
    message := err.message.getD err.kind
    source := some file }

/-- `analyze` from `lib.rs` lines 85–147.  The shared
`Arc<Mutex<TypeTable>>` is modelled by threading the table through: the
result pairs the `Result<(), Diagnostic>` with the table as left behind by
the pass (unchanged unless the type checker ran). -/
def analyze {Ast : Type} (fe : Frontend Ast) (text : List Char) (uri : Url)
    (table : TypeTable) : Except Diagnostic Unit × TypeTable :=
  let file := fileLabel uri
  let lexOut := fe.lex text file
  if lexOut.hasError then
    (Except.error
      { range := ⟨⟨0, 0⟩, ⟨0, 0⟩⟩
        severity := some DiagnosticSeverity.ERROR
        message := "lexer error".toList
        source := some file },
     table)
  else
    match fe.parse lexOut.tokens with
    | Except.error err => (Except.error (errDiag text file err), table)
    | Except.ok ast =>
      match fe.check ast table with
      | (Except.error err, table2) => (Except.error (errDiag text file err), table2)
      | (Except.ok _, table2) => (Except.ok (), table2)

/-- The document store: `HashMap<Url, String>` as an association list with
unique keys (insert replaces). -/
abbrev Docs : Type := List (Url × List Char)

/-- `HashMap::get`. -/
def getDoc (docs : Docs) (uri : Url) : Option (List Char) :=
  match docs with
  | [] => none
  | p :: rest => if p.1 = uri then some p.2 else getDoc rest uri

/-- `HashMap::insert` (replace any existing entry for the key). -/
def insertDoc (docs : Docs) (uri : Url) (text : List Char) : Docs :=
  (uri, text) :: List.filter (fun p => ¬ p.1 = uri) docs

/-- `HashMap::remove`. -/
def removeDoc (docs : Docs) (uri : Url) : Docs :=
  List.filter (fun p => ¬ p.1 = uri) docs

/-- LSP `CompletionItemKind`, restricted to the constructor used. -/
inductive CompletionItemKind where
  | VARIABLE
deriving DecidableEq

/-- LSP `CompletionItem`, restricted to the fields this layer sets. -/
structure CompletionItem where
  label : List Char
  kind : Option CompletionItemKind
  insertText : Option (List Char)
deriving DecidableEq

/-- `Backend::completion` from `lib.rs` lines 224–254: look the text up
(`None` when absent), run `analyze` against a fresh pre-seeded table
discarding the diagnostic, extract the cursor prefix with `current_ident`,
and return one item per `var_map` key that starts with the prefix. -/
def completion {Ast : Type} (isAlnum : Char → Bool) (fe : Frontend Ast)
    (docs : Docs) (uri : Url) (pos : Position) :
    Option (List CompletionItem) :=
  match getDoc docs uri with
  | none => none
  | some text =>
    let result := analyze fe text uri fe.initTable
    let pfx := current_ident isAlnum text pos
    some ((result.2.var_map.filter (fun name => pfx.isPrefixOf name)).map
      (fun name =>
        { label := name
          kind := some CompletionItemKind.VARIABLE
          insertText := some name }))

/-- One `publish_diagnostics(uri, diags, None)` call sent to the client. -/
structure PublishAction where
  uri : Url
  diagnostics : List Diagnostic
deriving DecidableEq

/-- `check_and_publish` from `lib.rs` lines 153–171: analyze against a
fresh pre-seeded table; publish `[]` and return the table on success,
publish the single diagnostic and return `none` on failure. -/
def check_and_publish {Ast : Type} (fe : Frontend Ast) (uri : Url)
    (text : List Char) : PublishAction × Option TypeTable :=
  match analyze fe text uri fe.initTable with
  | (Except.ok _, table) => (⟨uri, []⟩, some table)
  | (Except.error d, _) => (⟨uri, [d]⟩, none)

/-- `Backend::did_open` (`lib.rs` lines 199–205): store the text, then
analyze and publish.  Returns the new store and the publishes emitted. -/
def did_open {Ast : Type} (fe : Frontend Ast) (docs : Docs) (uri : Url)
    (text : List Char) : Docs × List PublishAction :=
  (insertDoc docs uri text, [(check_and_publish fe uri text).1])

/-- `Backend::did_change` (`lib.rs` lines 207–215): take the last content
change, if any; store its text, analyze and publish.  With no content
change nothing happens. -/
def did_change {Ast : Type} (fe : Frontend Ast) (docs : Docs) (uri : Url)
    (changes : List (List Char)) : Docs × List PublishAction :=
  match changes.getLast? with
  | some text => (insertDoc docs uri text, [(check_and_publish fe uri text).1])
  | none => (docs, [])

/-- `Backend::did_close` (`lib.rs` lines 217–222): drop the entry and
publish an empty diagnostics list. -/
def did_close (docs : Docs) (uri : Url) : Docs × List PublishAction :=
  (removeDoc docs uri, [⟨uri, []⟩])

/-- The document lifecycle notifications that publish diagnostics
(`completion` and the remaining handlers publish nothing). -/
inductive Event where
  | evOpen (uri : Url) (text : List Char)
  | evChange (uri : Url) (changes : List (List Char))
  | evClose (uri : Url)

/-- Dispatch one event to its handler. -/
def handleEvent {Ast : Type} (fe : Frontend Ast) (e : Event) (docs : Docs) :
    Docs × List PublishAction :=
  match e with
  | Event.evOpen uri text => did_open fe docs uri text
  | Event.evChange uri changes => did_change fe docs uri changes
  | Event.evClose uri => did_close docs uri

/-- The client's live diagnostics per URI.  A publish for a URI replaces
that URI's previous list (LSP `publishDiagnostics` semantics). -/
abbrev ClientView : Type := List (Url × List Diagnostic)

/-- Apply one publish to the client's view: full replacement for that URI. -/
def publishToView (view : ClientView) (pa : PublishAction) : ClientView :=
  (pa.uri, pa.diagnostics) :: List.filter (fun p => ¬ p.1 = pa.uri) view

/-- Server-plus-client state. -/
structure ServerState where
  docs : Docs
  view : ClientView

/-- Process one event: run the handler, apply its publishes to the view. -/
def stepState {Ast : Type} (fe : Frontend Ast) (st : ServerState) (e : Event) :
    ServerState :=
  let out := handleEvent fe e st.docs
  { docs := out.1, view := out.2.foldl publishToView st.view }

/-- Run a sequence of events from the initial (empty) state. -/
def runEvents {Ast : Type} (fe : Frontend Ast) (events : List Event) :
    ServerState :=
  events.foldl (stepState fe) ⟨[], []⟩

/-! ### Helper lemmas -/

theorem utf16_len_nil : utf16_len [] = 0 := rfl

theorem utf16_len_cons (c : Char) (s : List Char) :
    utf16_len (c :: s) = (if c.toNat < 0x10000 then 1 else 2) + utf16_len s := by
  simp only [utf16_len, List.map_cons, List.flatten_cons, List.length_append,
    encodeUtf16Char]
  split <;> simp

theorem utf16_len_eq_spec (s : List Char) : utf16_len s = utf16LenSpec s := by
  induction s with
  | nil => rfl
  | cons c s ih =>
    rw [utf16_len_cons, ih]
    simp [utf16LenSpec]

theorem utf16_len_ascii (s : List Char) (h : ∀ c ∈ s, c.toNat < 128) :
    utf16_len s = s.length := by
  induction s with
  | nil => rfl
  | cons c s ih =>
    rw [utf16_len_cons]
    have hc : c.toNat < 0x10000 := by
      have := h c (List.mem_cons_self c s)
      omega
    rw [if_pos hc, ih (fun d hd => h d (List.mem_cons_of_mem c hd))]
    simp [Nat.add_comm]

/-! ### Claims C1 and C2 -/

/-- C1: `calc_token_pos` locates the 1-based line `token.line` of the text
(empty when that line does not exist), takes its first `token.column - 1`
characters as the prefix (character count, not bytes), and returns
`startCol = utf16_len prefix` and `endCol = startCol + utf16_len value`;
in particular on the line `"变量x = 1"` with a token `"x"` at column 3 the
start column is `utf16_len "变量"`. -/
theorem calc_token_pos_spec (text : List Char) (tok : Token) :
    (calc_token_pos text tok).1 =
      utf16_len (((rustLines text).getD (tok.line - 1) []).take (tok.column - 1))
    ∧ (calc_token_pos text tok).2 =
      (calc_token_pos text tok).1 + utf16_len tok.value
    ∧ (calc_token_pos ("变量x = 1".toList) ⟨1, 3, "x".toList⟩).1 =
      utf16_len ("变量".toList) :=
  ⟨rfl, rfl, by decide⟩

/-- C2: `utf16_len` counts exactly the UTF-16 code units of the string's
encoding — one unit per BMP character and two (a surrogate pair) per
character beyond the BMP; for ASCII text this is the character count, and
`utf16_len "a😀b" = 4`. -/
theorem utf16_len_correct (s : List Char) :
    utf16_len s = utf16LenSpec s
    ∧ ((∀ c ∈ s, c.toNat < 128) → utf16_len s = s.length)
    ∧ utf16_len ("a😀b".toList) = 4 :=
  ⟨utf16_len_eq_spec s, utf16_len_ascii s, by decide⟩

/-- C2 witness: the ASCII case evaluated at `"abc"`. -/
theorem utf16_len_correct_witness : utf16_len ("abc".toList) = ("abc".toList).length :=
  (utf16_len_correct ("abc".toList)).2.1 (by decide)

/-! ### Claims C3 and C4: the analysis pipeline's error paths -/

/-- C3: when the lexer reports an error, `analyze` returns the diagnostic
with the default range (document start), severity error, message
"lexer error" and source the display label (file path when file-backed,
else the URI string) — and neither the parser nor the type checker is run:
the result is unchanged under any replacement of the parse and check
functions, and the table is left untouched. -/
theorem analyze_lexer_error {Ast : Type} (fe : Frontend Ast) (text : List Char)
    (uri : Url) (table : TypeTable)
    (h : (fe.lex text (fileLabel uri)).hasError = true) :
    analyze fe text uri table =
      (Except.error
        { range := ⟨⟨0, 0⟩, ⟨0, 0⟩⟩
          severity := some DiagnosticSeverity.ERROR
          message := "lexer error".toList
          source := some (fileLabel uri) }, table)
    ∧ ∀ (parse2 : List Token → Except FrontEndError Ast)
        (check2 : Ast → TypeTable → Except FrontEndError Unit × TypeTable),
        analyze { fe with parse := parse2, check := check2 } text uri table =
          analyze fe text uri table := by
  constructor
  · simp [analyze, h]
  · intro parse2 check2
    simp [analyze, h]

/-- C3 witness: a frontend whose lexer always errors. -/
theorem analyze_lexer_error_witness :
    @analyze Unit
        ⟨fun _ _ => ⟨[], true⟩, fun _ => Except.ok (),
         fun _ t => (Except.ok (), t), ⟨[]⟩⟩
        ("x".toList) ⟨"u".toList, none⟩ ⟨[]⟩ =
      (Except.error
        { range := ⟨⟨0, 0⟩, ⟨0, 0⟩⟩
          severity := some DiagnosticSeverity.ERROR
          message := "lexer error".toList
          source := some (fileLabel ⟨"u".toList, none⟩) }, ⟨[]⟩) :=
  (analyze_lexer_error
    ⟨fun _ _ => ⟨[], true⟩, fun _ => Except.ok (),
     fun _ t => (Except.ok (), t), ⟨[]⟩⟩
    ("x".toList) ⟨"u".toList, none⟩ ⟨[]⟩ rfl).1

/-- C4: when the parser fails, or the parser succeeds and the type checker
fails, `analyze` returns a diagnostic on 0-based line `token.line - 1` with
UTF-16 start/end columns from `calc_token_pos`, whose message is the
error's supplied message or, when absent, the error kind's textual form. -/
theorem analyze_front_end_error {Ast : Type} (fe : Frontend Ast)
    (text : List Char) (uri : Url) (table : TypeTable)
    (hlex : (fe.lex text (fileLabel uri)).hasError = false) :
    (∀ err, fe.parse (fe.lex text (fileLabel uri)).tokens = Except.error err →
      analyze fe text uri table =
        (Except.error
          { range := ⟨⟨err.token.line - 1, (calc_token_pos text err.token).1⟩,
                      ⟨err.token.line - 1, (calc_token_pos text err.token).2⟩⟩
            severity := some DiagnosticSeverity.ERROR
            message := err.message.getD err.kind
            source := some (fileLabel uri) }, table))
    ∧ (∀ ast err table2,
        fe.parse (fe.lex text (fileLabel uri)).tokens = Except.ok ast →
        fe.check ast table = (Except.error err, table2) →
        analyze fe text uri table =
          (Except.error
            { range := ⟨⟨err.token.line - 1, (calc_token_pos text err.token).1⟩,
                        ⟨err.token.line - 1, (calc_token_pos text err.token).2⟩⟩
              severity := some DiagnosticSeverity.ERROR
              message := err.message.getD err.kind
              source := some (fileLabel uri) }, table2)) := by
  constructor
  · intro err hp
    simp [analyze, hlex, hp, errDiag]
  · intro ast err table2 hp hc
    simp [analyze, hlex, hp, hc, errDiag]

/-- C4 witness: a parser failure and a type-checker failure at concrete
frontends, with the diagnostic evaluated. -/
theorem analyze_front_end_error_witness :
    @analyze Unit
        ⟨fun _ _ => ⟨[], false⟩,
         fun _ => Except.error ⟨⟨2, 1, "t".toList⟩, "parse kind".toList, none⟩,
         fun _ t => (Except.ok (), t), ⟨[]⟩⟩
        ("ab".toList) ⟨"u".toList, none⟩ ⟨[]⟩ =
      (Except.error
        { range := ⟨⟨1, (calc_token_pos ("ab".toList) ⟨2, 1, "t".toList⟩).1⟩,
                    ⟨1, (calc_token_pos ("ab".toList) ⟨2, 1, "t".toList⟩).2⟩⟩
          severity := some DiagnosticSeverity.ERROR
          message := (none : Option (List Char)).getD ("parse kind".toList)
          source := some (fileLabel ⟨"u".toList, none⟩) }, ⟨[]⟩)
    ∧ @analyze Unit
        ⟨fun _ _ => ⟨[], false⟩, fun _ => Except.ok (),
         fun _ _ => (Except.error ⟨⟨1, 1, "s".toList⟩, "type kind".toList,
            some "msg".toList⟩, ⟨["z".toList]⟩), ⟨[]⟩⟩
        ("ab".toList) ⟨"u".toList, none⟩ ⟨[]⟩ =
      (Except.error
        { range := ⟨⟨0, (calc_token_pos ("ab".toList) ⟨1, 1, "s".toList⟩).1⟩,
                    ⟨0, (calc_token_pos ("ab".toList) ⟨1, 1, "s".toList⟩).2⟩⟩
          severity := some DiagnosticSeverity.ERROR
          message := (some "msg".toList).getD ("type kind".toList)
          source := some (fileLabel ⟨"u".toList, none⟩) }, ⟨["z".toList]⟩) :=
  ⟨(analyze_front_end_error
      ⟨fun _ _ => ⟨[], false⟩,
       fun _ => Except.error ⟨⟨2, 1, "t".toList⟩, "parse kind".toList, none⟩,
       fun _ t => (Except.ok (), t), ⟨[]⟩⟩
      ("ab".toList) ⟨"u".toList, none⟩ ⟨[]⟩ rfl).1 _ rfl,
   (analyze_front_end_error
      ⟨fun _ _ => ⟨[], false⟩, fun _ => Except.ok (),
       fun _ _ => (Except.error ⟨⟨1, 1, "s".toList⟩, "type kind".toList,
          some "msg".toList⟩, ⟨["z".toList]⟩), ⟨[]⟩⟩
      ("ab".toList) ⟨"u".toList, none⟩ ⟨[]⟩ rfl).2 () _ _ rfl rfl⟩

/-! ### Claim C5: completion -/

/-- C5: for a stored document, `completion` returns exactly one candidate
per `var_map` key that starts with the cursor prefix (character-exact,
case-sensitive prefix match), with label and insert text both the
identifier and kind variable; the analysis diagnostic is discarded — the
items are computed from the table left behind by `analyze` regardless of
its success or failure. -/
theorem completion_items_spec {Ast : Type} (isAlnum : Char → Bool)
    (fe : Frontend Ast) (docs : Docs) (uri : Url) (pos : Position)
    (text : List Char) (h : getDoc docs uri = some text) :
    completion isAlnum fe docs uri pos =
      some (((analyze fe text uri fe.initTable).2.var_map.filter
          (fun name => (current_ident isAlnum text pos).isPrefixOf name)).map
        (fun name =>
          { label := name
            kind := some CompletionItemKind.VARIABLE
            insertText := some name }))
    ∧ ∀ items, completion isAlnum fe docs uri pos = some items →
        (items.map (fun it => it.label) =
          (analyze fe text uri fe.initTable).2.var_map.filter
            (fun name => (current_ident isAlnum text pos).isPrefixOf name))
        ∧ ∀ it ∈ items, it.kind = some CompletionItemKind.VARIABLE
            ∧ it.insertText = some it.label := by
  have h1 : completion isAlnum fe docs uri pos =
      some (((analyze fe text uri fe.initTable).2.var_map.filter
          (fun name => (current_ident isAlnum text pos).isPrefixOf name)).map
        (fun name =>
          { label := name
            kind := some CompletionItemKind.VARIABLE
            insertText := some name })) := by
    simp [completion, h]
  refine ⟨h1, ?_⟩
  intro items hi
  rw [h1] at hi
  have hitems := Option.some.inj hi
  subst hitems
  constructor
  · rw [List.map_map]
    exact List.map_id _
  · intro it hit
    rcases List.mem_map.mp hit with ⟨name, _, rfl⟩
    exact ⟨rfl, rfl⟩

/-- C5 witness: a one-document store, a checker that binds `ab` and `xy`,
and a cursor after `a`; the sole candidate is `ab`. -/
theorem completion_items_spec_witness :
    completion Char.isAlphanum
        (⟨fun _ _ => ⟨[], false⟩, fun _ => Except.ok (),
          fun _ t => (Except.ok (), ⟨"ab".toList :: "xy".toList :: t.var_map⟩),
          ⟨[]⟩⟩ : Frontend Unit)
        [(⟨"u".toList, none⟩, "a".toList)] ⟨"u".toList, none⟩ ⟨0, 1⟩ =
      some [{ label := "ab".toList
              kind := some CompletionItemKind.VARIABLE
              insertText := some "ab".toList }] := by
  have h := (completion_items_spec Char.isAlphanum
    (⟨fun _ _ => ⟨[], false⟩, fun _ => Except.ok (),
      fun _ t => (Except.ok (), ⟨"ab".toList :: "xy".toList :: t.var_map⟩),
      ⟨[]⟩⟩ : Frontend Unit)
    [(⟨"u".toList, none⟩, "a".toList)] ⟨"u".toList, none⟩ ⟨0, 1⟩
    ("a".toList) (by decide)).1
  rw [h]
  decide

/-! ### Claim C8: closed or never-opened documents -/

theorem getDoc_removeDoc (docs : Docs) (uri : Url) :
    getDoc (removeDoc docs uri) uri = none := by
  induction docs with
  | nil => rfl
  | cons p rest ih =>
    by_cases h : p.1 = uri
    · simpa [removeDoc, List.filter_cons, h] using ih
    · simpa [removeDoc, getDoc, List.filter_cons, h] using ih

/-- C8: after `did_close` removes the URI's entry, a completion request for
it finds no stored text and answers `none`; the same holds for any URI
with no entry in the store. -/
theorem did_close_completion_none {Ast : Type} (isAlnum : Char → Bool)
    (fe : Frontend Ast) (docs : Docs) (uri : Url) (pos : Position) :
    getDoc (did_close docs uri).1 uri = none
    ∧ completion isAlnum fe (did_close docs uri).1 uri pos = none
    ∧ (getDoc docs uri = none → completion isAlnum fe docs uri pos = none) := by
  refine ⟨getDoc_removeDoc docs uri, ?_, ?_⟩
  · simp [completion, did_close, getDoc_removeDoc docs uri]
  · intro h
    simp [completion, h]

/-- C8 witness: the never-opened case at an empty store. -/
theorem did_close_completion_none_witness :
    completion Char.isAlphanum
      (⟨fun _ _ => ⟨[], false⟩, fun _ => Except.ok (),
        fun _ t => (Except.ok (), t), ⟨[]⟩⟩ : Frontend Unit)
      ([] : Docs) ⟨"u".toList, none⟩ ⟨0, 0⟩ = none :=
  (did_close_completion_none Char.isAlphanum
    (⟨fun _ _ => ⟨[], false⟩, fun _ => Except.ok (),
      fun _ t => (Except.ok (), t), ⟨[]⟩⟩ : Frontend Unit)
    ([] : Docs) ⟨"u".toList, none⟩ ⟨0, 0⟩).2.2 rfl

/-! ### Claim C10: an empty change list is a no-op -/

/-- C10: a `didChange` whose content-change list is empty leaves the store
untouched and publishes nothing (no analysis runs — the handler's output
does not depend on the front end), so the stored text and the client's
diagnostic view stay exactly as they were. -/
theorem did_change_empty_noop {Ast : Type} (fe : Frontend Ast) (docs : Docs)
    (uri : Url) :
    did_change fe docs uri [] = (docs, [])
    ∧ ∀ st : ServerState, stepState fe st (Event.evChange uri []) = st :=
  ⟨rfl, fun _ => rfl⟩

/-! ### Claim C9: at most one live diagnostic per document -/

theorem check_and_publish_len {Ast : Type} (fe : Frontend Ast) (uri : Url)
    (text : List Char) :
    (check_and_publish fe uri text).1.diagnostics.length ≤ 1 := by
  unfold check_and_publish
  split <;> simp

theorem handleEvent_pub_len {Ast : Type} (fe : Frontend Ast) (e : Event)
    (docs : Docs) (pa : PublishAction) (h : pa ∈ (handleEvent fe e docs).2) :
    pa.diagnostics.length ≤ 1 := by
  cases e with
  | evOpen uri text =>
    simp only [handleEvent, did_open, List.mem_singleton] at h
    subst h
    exact check_and_publish_len fe uri text
  | evChange uri changes =>
    simp only [handleEvent, did_change] at h
    split at h
    · simp only [List.mem_singleton] at h
      subst h
      exact check_and_publish_len fe uri _
    · simp at h
  | evClose uri =>
    simp only [handleEvent, did_close, List.mem_singleton] at h
    subst h
    simp

theorem publishToView_len (view : ClientView) (pa : PublishAction)
    (hpa : pa.diagnostics.length ≤ 1)
    (hview : ∀ entry ∈ view, entry.2.length ≤ 1) :
    ∀ entry ∈ publishToView view pa, entry.2.length ≤ 1 := by
  intro entry he
  simp only [publishToView, List.mem_cons] at he
  rcases he with rfl | he
  · exact hpa
  · exact hview entry (List.mem_of_mem_filter he)

theorem foldl_publishToView_len (pubs : List PublishAction) (view : ClientView)
    (hp : ∀ pa ∈ pubs, pa.diagnostics.length ≤ 1)
    (hview : ∀ entry ∈ view, entry.2.length ≤ 1) :
    ∀ entry ∈ pubs.foldl publishToView view, entry.2.length ≤ 1 := by
  induction pubs generalizing view with
  | nil => exact hview
  | cons pa pubs ih =>
    exact ih _ (fun q hq => hp q (List.mem_cons_of_mem pa hq))
      (publishToView_len view pa (hp pa (List.mem_cons_self pa pubs)) hview)

theorem runEvents_aux_len {Ast : Type} (fe : Frontend Ast) (events : List Event)
    (st : ServerState) (hst : ∀ entry ∈ st.view, entry.2.length ≤ 1) :
    ∀ entry ∈ (events.foldl (stepState fe) st).view, entry.2.length ≤ 1 := by
  induction events generalizing st with
  | nil => exact hst
  | cons e events ih =>
    refine ih _ ?_
    exact foldl_publishToView_len _ _
      (fun pa hpa => handleEvent_pub_len fe e st.docs pa hpa) hst

/-- C9: every diagnostics list the server publishes holds zero or one
diagnostic (`check_and_publish` publishes `[]` on success and a singleton
on failure, `did_close` publishes `[]`), and since each publish replaces
the client's previous list for that URI, after any event sequence the
client's view holds at most one live diagnostic per document. -/
theorem diagnostics_at_most_one {Ast : Type} (fe : Frontend Ast) :
    (∀ e docs pa, pa ∈ (handleEvent fe e docs).2 → pa.diagnostics.length ≤ 1)
    ∧ (∀ events entry, entry ∈ (runEvents fe events).view →
        entry.2.length ≤ 1) :=
  ⟨fun e docs pa h => handleEvent_pub_len fe e docs pa h,
   fun events entry h =>
    runEvents_aux_len fe events ⟨[], []⟩ (by intro q hq; simp at hq) entry h⟩

/-- C9 witness: a close event publishes the empty list for the URI and the
resulting client view holds it. -/
theorem diagnostics_at_most_one_witness :
    ((⟨⟨"u".toList, none⟩, []⟩ : PublishAction).diagnostics.length ≤ 1)
    ∧ (((⟨"u".toList, none⟩ : Url), ([] : List Diagnostic)).2.length ≤ 1) :=
  ⟨(diagnostics_at_most_one
      (⟨fun _ _ => ⟨[], false⟩, fun _ => Except.ok (),
        fun _ t => (Except.ok (), t), ⟨[]⟩⟩ : Frontend Unit)).1
    (Event.evClose ⟨"u".toList, none⟩) [] ⟨⟨"u".toList, none⟩, []⟩ (by decide),
   (diagnostics_at_most_one
      (⟨fun _ _ => ⟨[], false⟩, fun _ => Except.ok (),
        fun _ t => (Except.ok (), t), ⟨[]⟩⟩ : Frontend Unit)).2
    [Event.evClose ⟨"u".toList, none⟩] ((⟨"u".toList, none⟩ : Url), []) (by decide)⟩

/-! ### Line arithmetic for `current_ident` -/

theorem splitOnNl_ne_nil (s : List Char) : splitOnNl s ≠ [] := by
  cases s with
  | nil => simp [splitOnNl]
  | cons c rest =>
    simp only [splitOnNl]
    split
    · simp
    · split <;> simp

/-- Decomposition of a text with at least two lines: a first line without
newline, the separating newline, and the remainder. -/
theorem splitOnNl_decomp (s : List Char) (h : 2 ≤ (splitOnNl s).length) :
    ∃ l rest, s = l ++ '\n' :: rest ∧ '\n' ∉ l
      ∧ splitOnNl s = l :: splitOnNl rest := by
  induction s with
  | nil => simp [splitOnNl] at h
  | cons c rest ih =>
    by_cases hc : c = '\n'
    · subst hc
      exact ⟨[], rest, rfl, by simp, by simp [splitOnNl]⟩
    · rcases heq : splitOnNl rest with _ | ⟨p, ps⟩
      · exact absurd heq (splitOnNl_ne_nil rest)
      · have hs : splitOnNl (c :: rest) = (c :: p) :: ps := by
          simp [splitOnNl, hc, heq]
        rw [hs] at h
        have hps : ps ≠ [] := by
          intro hnil
          rw [hnil] at h
          simp at h
        have h2 : 2 ≤ (splitOnNl rest).length := by
          rw [heq]
          cases ps with
          | nil => exact absurd rfl hps
          | cons q qs => simp
        rcases ih h2 with ⟨l, r2, hrest, hnl, hsplit⟩
        refine ⟨c :: l, r2, by simp [hrest], ?_, ?_⟩
        · simp only [List.mem_cons, not_or]
          exact ⟨fun hcn => hc hcn.symm, hnl⟩
        · have hpl : p :: ps = l :: splitOnNl r2 := heq.symm.trans hsplit
          injection hpl with h1 h2
          rw [hs, h1, h2]

theorem joinNl_cons_cons (l l2 : List Char) (ls : List (List Char)) :
    joinNl (l :: l2 :: ls) = l ++ '\n' :: joinNl (l2 :: ls) := rfl

theorem joinNl_splitOnNl (s : List Char) : joinNl (splitOnNl s) = s := by
  induction s with
  | nil => rfl
  | cons c rest ih =>
    by_cases hc : c = '\n'
    · subst hc
      have hs : splitOnNl ('\n' :: rest) = [] :: splitOnNl rest := by
        simp [splitOnNl]
      rw [hs]
      rcases heq : splitOnNl rest with _ | ⟨p, ps⟩
      · exact absurd heq (splitOnNl_ne_nil rest)
      · rw [heq] at ih
        rw [joinNl_cons_cons, List.nil_append, ih]
    · rcases heq : splitOnNl rest with _ | ⟨p, ps⟩
      · exact absurd heq (splitOnNl_ne_nil rest)
      · have hs : splitOnNl (c :: rest) = (c :: p) :: ps := by
          simp [splitOnNl, hc, heq]
        rw [hs]
        rw [heq] at ih
        cases ps with
        | nil =>
          simp only [joinNl] at ih ⊢
          rw [ih]
        | cons q qs =>
          rw [joinNl_cons_cons] at ih
          rw [joinNl_cons_cons, List.cons_append, ih]

theorem splitOnNl_length (s : List Char) :
    (splitOnNl s).length = s.count '\n' + 1 := by
  induction s with
  | nil => simp [splitOnNl]
  | cons c rest ih =>
    by_cases hc : c = '\n'
    · subst hc
      have hs : splitOnNl ('\n' :: rest) = [] :: splitOnNl rest := by
        simp [splitOnNl]
      rw [hs]
      simp [ih, List.count_cons]
    · rcases heq : splitOnNl rest with _ | ⟨p, ps⟩
      · exact absurd heq (splitOnNl_ne_nil rest)
      · have hs : splitOnNl (c :: rest) = (c :: p) :: ps := by
          simp [splitOnNl, hc, heq]
        rw [hs]
        rw [heq] at ih
        simp only [List.length_cons] at ih ⊢
        simp [List.count_cons, hc]
        omega

theorem splitOnNl_of_no_nl (s : List Char) (h : '\n' ∉ s) :
    splitOnNl s = [s] := by
  induction s with
  | nil => rfl
  | cons c rest ih =>
    simp only [List.mem_cons, not_or] at h
    have hc : ¬ c = '\n' := fun hcc => h.1 hcc.symm
    have hrest : splitOnNl rest = [rest] := ih h.2
    simp [splitOnNl, hc, hrest]


theorem lineStartLoop_cons (T : Nat) (c : Char) (rest : List Char)
    (i cl ls : Nat) :
    lineStartLoop T (c :: rest) i cl ls =
      if cl = T then ls
      else if c = '\n' then lineStartLoop T rest (i + 1) (cl + 1) (i + 1)
      else lineStartLoop T rest (i + 1) cl ls := rfl

theorem lineStartLoop_walk (l : List Char) (hl : '\n' ∉ l) (T : Nat)
    (rest : List Char) (i cl ls : Nat) (hcl : cl ≠ T) :
    lineStartLoop T (l ++ '\n' :: rest) i cl ls =
      lineStartLoop T rest (i + l.length + 1) (cl + 1) (i + l.length + 1) := by
  induction l generalizing i with
  | nil =>
    rw [List.nil_append, lineStartLoop_cons, if_neg hcl, if_pos rfl]
    simp
  | cons c l ih =>
    simp only [List.mem_cons, not_or] at hl
    have hc : ¬ c = '\n' := fun hcc => hl.1 hcc.symm
    rw [List.cons_append, lineStartLoop_cons, if_neg hcl, if_neg hc,
      ih hl.2 (i + 1)]
    have e : i + 1 + l.length + 1 = i + (c :: l).length + 1 := by
      simp only [List.length_cons]
      omega
    rw [e]

theorem lineStartLoop_no_nl (l : List Char) (hl : '\n' ∉ l) (T i cl ls : Nat)
    (hcl : cl ≠ T) : lineStartLoop T l i cl ls = ls := by
  induction l generalizing i with
  | nil => rfl
  | cons c l ih =>
    simp only [List.mem_cons, not_or] at hl
    have hc : ¬ c = '\n' := fun hcc => hl.1 hcc.symm
    rw [lineStartLoop_cons, if_neg hcl, if_neg hc]
    exact ih hl.2 (i + 1)

/-- At a line start (`ls = i`), the loop's result is the start offset of
line `cl + n`, when that line exists. -/
theorem lineStartLoop_offset (n : Nat) (text : List Char) (cl i : Nat)
    (h : n < (splitOnNl text).length) :
    lineStartLoop (cl + n) text i cl i = i + lineOffset n text := by
  induction n generalizing text cl i with
  | zero =>
    simp only [lineOffset, List.take_zero, List.map_nil, List.sum_nil,
      Nat.add_zero]
    cases text with
    | nil => rfl
    | cons c rest => simp [lineStartLoop_cons]
  | succ n ih =>
    have h2 : 2 ≤ (splitOnNl text).length := by omega
    rcases splitOnNl_decomp text h2 with ⟨l, rest, hdec, hnl, hsplit⟩
    subst hdec
    have hcl : cl ≠ cl + (n + 1) := by omega
    rw [lineStartLoop_walk l hnl (cl + (n + 1)) rest i cl i hcl]
    have hT : cl + (n + 1) = cl + 1 + n := by omega
    have hlen : n < (splitOnNl rest).length := by
      rw [hsplit] at h
      simp only [List.length_cons] at h
      omega
    rw [hT, ih rest (cl + 1) (i + l.length + 1) hlen]
    have hoff : lineOffset (n + 1) (l ++ '\n' :: rest) =
        l.length + 1 + lineOffset n rest := by
      simp only [lineOffset, hsplit, List.take_succ_cons, List.map_cons,
        List.sum_cons]
    rw [hoff]
    omega

/-- When the requested line lies beyond the last line, the loop runs to the
end of the text and leaves the offset just after the last newline. -/
theorem lineStartLoop_beyond (n : Nat) (text : List Char) (cl i T : Nat)
    (hn : (splitOnNl text).length = n) (h : cl + n ≤ T) :
    lineStartLoop T text i cl i = i + lineOffsetLast text := by
  induction n generalizing text cl i with
  | zero => exact absurd hn (by simpa using splitOnNl_ne_nil text)
  | succ n ih =>
    cases n with
    | zero =>
      have hnonl : '\n' ∉ text := by
        have := splitOnNl_length text
        rw [hn] at this
        exact List.count_eq_zero.mp (by omega)
      have hsingle : splitOnNl text = [text] := splitOnNl_of_no_nl text hnonl
      have hcl : cl ≠ T := by omega
      rw [lineStartLoop_no_nl text hnonl T i cl i hcl]
      simp [lineOffsetLast, hsingle]
    | succ m =>
      have h2 : 2 ≤ (splitOnNl text).length := by omega
      rcases splitOnNl_decomp text h2 with ⟨l, rest, hdec, hnl, hsplit⟩
      subst hdec
      have hcl : cl ≠ T := by omega
      rw [lineStartLoop_walk l hnl T rest i cl i hcl]
      have hlen : (splitOnNl rest).length = m + 1 := by
        rw [hsplit] at hn
        simp only [List.length_cons] at hn
        omega
      rw [ih rest (cl + 1) (i + l.length + 1) hlen (by omega)]
      have hne : splitOnNl rest ≠ [] := splitOnNl_ne_nil rest
      have hoff : lineOffsetLast (l ++ '\n' :: rest) =
          l.length + 1 + lineOffsetLast rest := by
        simp only [lineOffsetLast, hsplit, List.dropLast_cons_of_ne_nil hne,
          List.map_cons, List.sum_cons]
      rw [hoff]
      omega

/-- Dropping the offset of line `n` exposes line `n` and everything after
it, rejoined. -/
theorem drop_lineOffset (n : Nat) (text : List Char)
    (h : n < (splitOnNl text).length) :
    text.drop (lineOffset n text) = joinNl ((splitOnNl text).drop n) := by
  induction n generalizing text with
  | zero =>
    simp only [lineOffset, List.take_zero, List.map_nil, List.sum_nil,
      List.drop_zero]
    exact (joinNl_splitOnNl text).symm
  | succ n ih =>
    have h2 : 2 ≤ (splitOnNl text).length := by omega
    rcases splitOnNl_decomp text h2 with ⟨l, rest, hdec, hnl, hsplit⟩
    subst hdec
    have hlen : n < (splitOnNl rest).length := by
      rw [hsplit] at h
      simp only [List.length_cons] at h
      omega
    have hoff : lineOffset (n + 1) (l ++ '\n' :: rest) =
        l.length + 1 + lineOffset n rest := by
      simp only [lineOffset, hsplit, List.take_succ_cons, List.map_cons,
        List.sum_cons]
    rw [hoff, hsplit]
    have hdrop : (l ++ '\n' :: rest).drop (l.length + 1 + lineOffset n rest) =
        rest.drop (lineOffset n rest) := by
      rw [← List.drop_drop]
      congr 1
      rw [← List.drop_drop, List.drop_left]
      rfl
    rw [hdrop, ih rest hlen]
    rfl

theorem drop_lineOffsetLast_aux (n : Nat) (text : List Char)
    (hn : (splitOnNl text).length = n + 1) :
    text.drop (lineOffsetLast text) = (splitOnNl text).getLastD [] := by
  induction n generalizing text with
  | zero =>
    have hnonl : '\n' ∉ text := by
      have := splitOnNl_length text
      rw [hn] at this
      exact List.count_eq_zero.mp (by omega)
    have hsingle : splitOnNl text = [text] := splitOnNl_of_no_nl text hnonl
    simp [lineOffsetLast, hsingle]
  | succ m ih =>
    have h2 : 2 ≤ (splitOnNl text).length := by omega
    rcases splitOnNl_decomp text h2 with ⟨l, rest, hdec, hnl, hsplit⟩
    subst hdec
    have hlen : (splitOnNl rest).length = m + 1 := by
      rw [hsplit] at hn
      simp only [List.length_cons] at hn
      omega
    have hne : splitOnNl rest ≠ [] := splitOnNl_ne_nil rest
    have hoff : lineOffsetLast (l ++ '\n' :: rest) =
        l.length + 1 + lineOffsetLast rest := by
      simp only [lineOffsetLast, hsplit, List.dropLast_cons_of_ne_nil hne,
        List.map_cons, List.sum_cons]
    rw [hoff, hsplit]
    have hdrop : (l ++ '\n' :: rest).drop (l.length + 1 + lineOffsetLast rest) =
        rest.drop (lineOffsetLast rest) := by
      rw [← List.drop_drop]
      congr 1
      rw [← List.drop_drop, List.drop_left]
      rfl
    rw [hdrop, ih rest hlen]
    cases hsr : splitOnNl rest with
    | nil => exact absurd hsr hne
    | cons q qs => simp

/-- Dropping the offset of the last line exposes exactly the last line. -/
theorem drop_lineOffsetLast (text : List Char) :
    text.drop (lineOffsetLast text) = (splitOnNl text).getLastD [] := by
  rcases hn : (splitOnNl text).length with _ | n
  · exact absurd hn (by simpa using splitOnNl_ne_nil text)
  · exact drop_lineOffsetLast_aux n text hn

/-- Taking at most the first line's length out of rejoined lines stays in
the first line. -/
theorem take_joinNl_cons (k : Nat) (l : List Char) (ls : List (List Char))
    (h : k ≤ l.length) : (joinNl (l :: ls)).take k = l.take k := by
  cases ls with
  | nil => rfl
  | cons l2 ls =>
    rw [joinNl_cons_cons]
    exact List.take_append_of_le_length h

/-! ### The trailing identifier run -/

theorem trailingRun_decomp (p : Char → Bool) (l : List Char) :
    l = (l.reverse.dropWhile p).reverse ++ trailingRun p l := by
  have h2 := congrArg List.reverse (List.takeWhile_append_dropWhile p l.reverse)
  rw [List.reverse_append, List.reverse_reverse] at h2
  exact h2.symm

theorem trailingRun_mem (p : Char → Bool) (l : List Char) :
    ∀ c ∈ trailingRun p l, p c = true := by
  intro c hc
  rw [trailingRun, List.mem_reverse] at hc
  exact List.mem_takeWhile_imp hc

theorem trailingRun_rest_last (p : Char → Bool) (l : List Char) (c : Char)
    (h : ((l.reverse.dropWhile p).reverse).getLast? = some c) : p c = false := by
  rw [List.getLast?_reverse] at h
  have h2 := List.head?_dropWhile_not p l.reverse
  rw [h] at h2
  exact h2

theorem trailingRun_nil_of_last (p : Char → Bool) (l : List Char) (c : Char)
    (hl : l.getLast? = some c) (hp : p c = false) : trailingRun p l = [] := by
  rw [← List.head?_reverse] at hl
  cases hrev : l.reverse with
  | nil =>
    rw [hrev] at hl
    simp at hl
  | cons a t =>
    rw [hrev] at hl
    simp only [List.head?_cons, Option.some.injEq] at hl
    subst hl
    simp [trailingRun, hrev, List.takeWhile_cons, hp]

/-! ### Claims C6 and C7: the cursor-prefix extraction -/

/-- C7: for a cursor placed inside an existing line (`pos.line` exists and
`pos.character` is at most that line's length), `current_ident` returns the
maximal trailing run of alphanumeric-or-underscore characters ending
exactly at the cursor: the run is a suffix of the text before the cursor on
that line, every one of its characters is a word character, the character
just before the run (when any) is not, and the result is empty whenever
the character immediately before the cursor is not a word character. -/
theorem current_ident_within_line (isAlnum : Char → Bool) (text : List Char)
    (pos : Position) (hl : pos.line < (splitOnNl text).length)
    (hc : pos.character ≤ ((splitOnNl text).getD pos.line []).length) :
    (∃ pre,
      ((splitOnNl text).getD pos.line []).take pos.character =
        pre ++ current_ident isAlnum text pos
      ∧ (∀ c ∈ current_ident isAlnum text pos, (isAlnum c || c = '_') = true)
      ∧ (∀ c, pre.getLast? = some c → (isAlnum c || c = '_') = false))
    ∧ (∀ c, (((splitOnNl text).getD pos.line []).take pos.character).getLast? =
          some c → (isAlnum c || c = '_') = false →
        current_ident isAlnum text pos = []) := by
  have hline0 : lineStartLoop pos.line text 0 0 0 = lineOffset pos.line text := by
    simpa using lineStartLoop_offset pos.line text 0 0 hl
  have hgetD : (splitOnNl text).getD pos.line [] = (splitOnNl text)[pos.line] := by
    rw [List.getD_eq_getElem?_getD, List.getElem?_eq_getElem hl]
    rfl
  have hbefore : (text.drop (lineStartLoop pos.line text 0 0 0)).take pos.character =
      ((splitOnNl text).getD pos.line []).take pos.character := by
    rw [hline0, drop_lineOffset pos.line text hl, List.drop_eq_getElem_cons hl,
      ← hgetD]
    exact take_joinNl_cons pos.character _ _ hc
  have hci : current_ident isAlnum text pos =
      trailingRun (fun c => isAlnum c || c = '_')
        (((splitOnNl text).getD pos.line []).take pos.character) := by
    show trailingRun (fun c => isAlnum c || c = '_')
        ((text.drop (lineStartLoop pos.line text 0 0 0)).take pos.character) = _
    rw [hbefore]
  constructor
  · refine ⟨((((splitOnNl text).getD pos.line []).take pos.character).reverse.dropWhile
        (fun c => isAlnum c || c = '_')).reverse, ?_, ?_, ?_⟩
    · conv_lhs => rw [trailingRun_decomp (fun c => isAlnum c || c = '_')
        (((splitOnNl text).getD pos.line []).take pos.character)]
      rw [hci]
    · rw [hci]
      exact trailingRun_mem _ _
    · intro c hc2
      exact trailingRun_rest_last _ _ c hc2
  · intro c hlast hp
    rw [hci]
    exact trailingRun_nil_of_last _ _ c hlast hp

/-- C7 witness: text `"ab c\nx_1 y"`, cursor at line 1, character 3 (after
`x_1`). -/
theorem current_ident_within_line_witness :
    (∃ pre,
      ((splitOnNl ("ab c\nx_1 y".toList)).getD 1 []).take 3 =
        pre ++ current_ident Char.isAlphanum ("ab c\nx_1 y".toList) ⟨1, 3⟩
      ∧ (∀ c ∈ current_ident Char.isAlphanum ("ab c\nx_1 y".toList) ⟨1, 3⟩,
          (Char.isAlphanum c || c = '_') = true)
      ∧ (∀ c, pre.getLast? = some c → (Char.isAlphanum c || c = '_') = false))
    ∧ (∀ c, (((splitOnNl ("ab c\nx_1 y".toList)).getD 1 []).take 3).getLast? =
          some c → (Char.isAlphanum c || c = '_') = false →
        current_ident Char.isAlphanum ("ab c\nx_1 y".toList) ⟨1, 3⟩ = []) :=
  current_ident_within_line Char.isAlphanum ("ab c\nx_1 y".toList) ⟨1, 3⟩
    (by decide) (by decide)

/-- C6 counterexample: the claim's two edge cases fail on the code.  With
text `"a\nb"` and cursor (line 0, character 3) — beyond the end of line 0
(`"a"`) — the code does not clamp to the line end: it crosses the newline
and returns `"b"`, a character that does not occur in line 0 at all.  With
text `"ab"` and cursor line 5 — beyond the end of the document — the code
does not act on an empty line: it lands on the text after the last newline
(the last line) and returns `"ab"`, not `""`. -/
theorem current_ident_clamp_cex :
    current_ident Char.isAlphanum ("a\nb".toList) ⟨0, 3⟩ = "b".toList
    ∧ ¬ ('b' ∈ "a".toList)
    ∧ current_ident Char.isAlphanum ("ab".toList) ⟨5, 2⟩ = "ab".toList
    ∧ "ab".toList ≠ ([] : List Char) :=
  ⟨by decide, by decide, by decide, by decide⟩

/-- C6 amended: a cursor whose character offset lies beyond the end of its
line is not clamped — the prefix is computed from the first
`pos.character` characters of the whole document suffix that starts at the
line's start (so it can include newline-crossing content from later
lines); a cursor line beyond the end of the document is not an empty line —
the cursor lands on the suffix after the last newline (the last line of
the document, empty only when the text is empty or ends with a newline). -/
theorem current_ident_edge_actual (isAlnum : Char → Bool) (text : List Char)
    (pos : Position) :
    (pos.line < (splitOnNl text).length →
      current_ident isAlnum text pos =
        trailingRun (fun c => isAlnum c || c = '_')
          ((joinNl ((splitOnNl text).drop pos.line)).take pos.character))
    ∧ ((splitOnNl text).length ≤ pos.line →
      current_ident isAlnum text pos =
        trailingRun (fun c => isAlnum c || c = '_')
          (((splitOnNl text).getLastD []).take pos.character)) := by
  constructor
  · intro h
    have hline0 : lineStartLoop pos.line text 0 0 0 = lineOffset pos.line text := by
      simpa using lineStartLoop_offset pos.line text 0 0 h
    show trailingRun (fun c => isAlnum c || c = '_')
        ((text.drop (lineStartLoop pos.line text 0 0 0)).take pos.character) = _
    rw [hline0, drop_lineOffset pos.line text h]
  · intro h
    have hline0 : lineStartLoop pos.line text 0 0 0 = lineOffsetLast text := by
      simpa using lineStartLoop_beyond ((splitOnNl text).length) text 0 0 pos.line
        rfl (by omega)
    show trailingRun (fun c => isAlnum c || c = '_')
        ((text.drop (lineStartLoop pos.line text 0 0 0)).take pos.character) = _
    rw [hline0, drop_lineOffsetLast]

/-- C6 amended witness: the two counterexample inputs, under the actual
behaviour. -/
theorem current_ident_edge_actual_witness :
    current_ident Char.isAlphanum ("a\nb".toList) ⟨0, 3⟩ =
      trailingRun (fun c => Char.isAlphanum c || c = '_')
        ((joinNl ((splitOnNl ("a\nb".toList)).drop 0)).take 3)
    ∧ current_ident Char.isAlphanum ("ab".toList) ⟨5, 2⟩ =
      trailingRun (fun c => Char.isAlphanum c || c = '_')
        (((splitOnNl ("ab".toList)).getLastD []).take 2) :=
  ⟨(current_ident_edge_actual Char.isAlphanum ("a\nb".toList) ⟨0, 3⟩).1 (by decide),
   (current_ident_edge_actual Char.isAlphanum ("ab".toList) ⟨5, 2⟩).2 (by decide)⟩

end TypedAntLsp
